import Mathlib

/-!
Shallow embedding of the `uvarint` crate (LEB128-style unsigned varint codec).

Machine integers (`u32`, `u64`, `u128`, `u8`, `usize`) are modelled as `Nat`
with explicit `% 2 ^ W` where the Rust semantics wraps; slices and caller
buffers are `List Nat`; fallible functions return `Except UVarintError`;
the mutable buffer of the in-place encoders and the byte stream of the
`io` readers are passed and returned explicitly.
-/

/-- Error enum of `src/error.rs`. -/
inductive UVarintError : Type where
  | Incomplete
  | Overflow
  | BufferTooSmall
  | InvalidUtf8
  | WriteFailed
deriving DecidableEq, Repr

/-- Rust `uW::checked_shl`: `some ((x <<< s) % 2 ^ W)` when the shift amount
`s` is below the bit width `W`, `none` otherwise.  Bits shifted past the
width are discarded by Rust's `<<`, hence the `% 2 ^ W`. -/
def checked_shl (W x s : Nat) : Option Nat :=
  if s < W then some ((x <<< s) % 2 ^ W) else none

/-- Rust `uW::checked_add` on values below `2 ^ W`. -/
def checked_add (W x y : Nat) : Option Nat :=
  if x + y < 2 ^ W then some (x + y) else none

/-- The decoding loop shared by `decode_u32` / `decode_u64` / `decode_u128`
(`src/decode.rs`): byte index `i` and accumulator `value` are threaded
explicitly; the byte list is the `take`-limited slice being iterated. -/
def decodeLoop (W : Nat) : List Nat → Nat → Nat → Except UVarintError (Nat × Nat)
  | [], _, _ => .error .Incomplete
  | b :: rest, i, value =>
    match checked_shl W (b &&& 0x7F) (i * 7) with
    | none => .error .Overflow
    | some shifted =>
      match checked_add W value shifted with
      | none => .error .Overflow
      | some value2 =>
        if b &&& 0x80 = 0 then .ok (i + 1, value2)
        else decodeLoop W rest (i + 1) value2

/-- `decode_u32` (`src/decode.rs` lines 50-70): scans at most 5 bytes. -/
def decode_u32 (data : List Nat) : Except UVarintError (Nat × Nat) :=
  decodeLoop 32 (data.take 5) 0 0

/-- `decode_u64` (`src/decode.rs` lines 119-139): scans at most 10 bytes. -/
def decode_u64 (data : List Nat) : Except UVarintError (Nat × Nat) :=
  decodeLoop 64 (data.take 10) 0 0

/-- `decode_u128` (`src/decode.rs` lines 163-183): scans at most 16 bytes
(`data.iter().take(16)` in the source). -/
def decode_u128 (data : List Nat) : Except UVarintError (Nat × Nat) :=
  decodeLoop 128 (data.take 16) 0 0

/-- The `while value > 0` emission loop shared verbatim by `encode_u16`,
`encode_u32` and `encode_u64` (`src/encode.rs`): emit the low 7 bits, set
the continuation bit when the shifted value is still nonzero. -/
def encodeLoop (value : Nat) : List Nat :=
  if h : value = 0 then []
  else
    let byte := value &&& 0x7F
    let value2 := value >>> 7
    (if 0 < value2 then byte ||| 0x80 else byte) :: encodeLoop value2
termination_by value
decreasing_by
  simp only [Nat.shiftRight_eq_div_pow]
  exact Nat.div_lt_self (Nat.pos_of_ne_zero h) (by norm_num)

/-- `encode_u32` (`src/encode.rs` lines 109-129). -/
def encode_u32 (value : Nat) : List Nat :=
  if value = 0 then [0x00] else encodeLoop value

/-- `encode_u64` (`src/encode.rs` lines 260-285): same body as `encode_u32`. -/
def encode_u64 (value : Nat) : List Nat :=
  if value = 0 then [0x00] else encodeLoop value

/-- Modelled from the spec: `encode_u128` is re-exported by `src/lib.rs`
(lines 7-9) but its body is not among the source files; spec §4.2 prescribes
for every width the same emission algorithm as `encode_u32`/`encode_u64`. -/
def encode_u128 (value : Nat) : List Nat :=
  if value = 0 then [0x00] else encodeLoop value

/-- The `while value > 0` loop of `encode_u32_into` / `encode_u64_into`
(`src/encode.rs`): writes `buf[i]` and increments `i`, failing with
`BufferTooSmall` when `i >= buf.len()` while bits remain.  Returns the
result together with the final state of the caller buffer. -/
def encodeIntoLoop (value : Nat) (buf : List Nat) (i : Nat) :
    Except UVarintError Nat × List Nat :=
  if h : value = 0 then (.ok i, buf)
  else if buf.length ≤ i then (.error .BufferTooSmall, buf)
  else
    let byte := value &&& 0x7F
    let value2 := value >>> 7
    encodeIntoLoop value2 (buf.set i (if 0 < value2 then byte ||| 0x80 else byte)) (i + 1)
termination_by value
decreasing_by
  simp only [Nat.shiftRight_eq_div_pow]
  exact Nat.div_lt_self (Nat.pos_of_ne_zero h) (by norm_num)

/-- `encode_u32_into` (`src/encode.rs` lines 186-216). -/
def encode_u32_into (value : Nat) (buf : List Nat) :
    Except UVarintError Nat × List Nat :=
  if buf.isEmpty then (.error .BufferTooSmall, buf)
  else if value = 0 then (.ok 1, buf.set 0 0x00)
  else encodeIntoLoop value buf 0

/-- `encode_u64_into` (`src/encode.rs` lines 303-333): same body as
`encode_u32_into`. -/
def encode_u64_into (value : Nat) (buf : List Nat) :
    Except UVarintError Nat × List Nat :=
  if buf.isEmpty then (.error .BufferTooSmall, buf)
  else if value = 0 then (.ok 1, buf.set 0 0x00)
  else encodeIntoLoop value buf 0

/-- The byte-pulling loop of `read_u32` / `read_u64` (`src/io.rs`): up to
`fuel` single-byte `read_exact` calls against the stream, stopping at the
first byte with the high bit clear.  Returns the pulled bytes (the
`&buf[..bytes_read]` slice) and the remaining stream; a failed `read_exact`
surfaces as `Incomplete`. -/
def readVarintBytes : Nat → List Nat → List Nat → Except UVarintError (List Nat) × List Nat
  | 0, source, acc => (.ok acc, source)
  | _ + 1, [], _ => (.error .Incomplete, [])
  | fuel + 1, b :: rest, acc =>
    if b &&& 0x80 = 0 then (.ok (acc ++ [b]), rest)
    else readVarintBytes fuel rest (acc ++ [b])

/-- `read_u32` (`src/io.rs` lines 22-40): note the loop bound is `0..10`
in the source, as in `read_u64`. -/
def read_u32 (source : List Nat) : Except UVarintError Nat × List Nat :=
  match readVarintBytes 10 source [] with
  | (.error e, rest) => (.error e, rest)
  | (.ok pulled, rest) =>
    match decode_u32 pulled with
    | .error e => (.error e, rest)
    | .ok (_, v) => (.ok v, rest)

/-- `read_u64` (`src/io.rs` lines 55-73). -/
def read_u64 (source : List Nat) : Except UVarintError Nat × List Nat :=
  match readVarintBytes 10 source [] with
  | (.error e, rest) => (.error e, rest)
  | (.ok pulled, rest) =>
    match decode_u64 pulled with
    | .error e => (.error e, rest)
    | .ok (_, v) => (.ok v, rest)

/-- The value implied by the 7-bit data groups of a byte list:
`Σ (bs[i] &&& 0x7F) <<< (7*i)`, little-endian (spec §6). -/
def impliedValue : List Nat → Nat
  | [] => 0
  | b :: rest => (b &&& 0x7F) + 128 * impliedValue rest

/-- Bit length of a value, `bit_length` of the spec's minimality formula
(spec §8): 0 for 0, otherwise one more than the floor base-2 logarithm. -/
def bit_length (v : Nat) : Nat :=
  if v = 0 then 0 else Nat.log 2 v + 1

example : decode_u32 [0xAC, 0x02] = .ok (2, 300) := by rfl
example : decode_u64 [0xFF, 0x7F] = .ok (2, 16383) := by rfl
example : decode_u128 [0x80, 0x01] = .ok (2, 128) := by rfl
example : decode_u32 [0x80] = .error .Incomplete := by rfl

/-! ### Bit-level helper lemmas -/

lemma and127_eq_mod (v : Nat) : v &&& 127 = v % 128 := by
  have h := Nat.and_pow_two_sub_one_eq_mod v 7
  norm_num at h
  exact h

lemma and128_of_lt {y : Nat} (h : y < 128) : y &&& 128 = 0 := by
  revert h
  have : ∀ y < 128, y &&& 128 = 0 := by decide
  exact this y

lemma or128_and128 {y : Nat} (h : y < 128) : (y ||| 128) &&& 128 = 128 := by
  revert h
  have : ∀ y < 128, (y ||| 128) &&& 128 = 128 := by decide
  exact this y

lemma or128_and127 {y : Nat} (h : y < 128) : (y ||| 128) &&& 127 = y := by
  revert h
  have : ∀ y < 128, (y ||| 128) &&& 127 = y := by decide
  exact this y

lemma shiftRight7_eq (v : Nat) : v >>> 7 = v / 128 := by
  rw [Nat.shiftRight_eq_div_pow]

/-! ### Structure of the encoder output -/

lemma encodeLoop_zero : encodeLoop 0 = [] := by
  rw [encodeLoop]
  simp

lemma encodeLoop_pos {v : Nat} (h : v ≠ 0) :
    encodeLoop v =
      (if 0 < v >>> 7 then (v &&& 0x7F) ||| 0x80 else v &&& 0x7F) :: encodeLoop (v >>> 7) := by
  rw [encodeLoop]
  simp [h]

lemma encodeLoop_ne_nil {v : Nat} (h : v ≠ 0) : encodeLoop v ≠ [] := by
  rw [encodeLoop_pos h]
  exact List.cons_ne_nil _ _

/-- The value implied by the emitted data groups is the encoded value. -/
lemma impliedValue_encodeLoop (v : Nat) : impliedValue (encodeLoop v) = v := by
  induction v using Nat.strong_induction_on with
  | _ v ih =>
    by_cases h : v = 0
    · subst h; rw [encodeLoop_zero]; rfl
    · rw [encodeLoop_pos h]
      have hlt : v >>> 7 < v := by
        rw [shiftRight7_eq]
        exact Nat.div_lt_self (Nat.pos_of_ne_zero h) (by norm_num)
      have hmod : v &&& 127 < 128 := by
        rw [and127_eq_mod]; exact Nat.mod_lt _ (by norm_num)
      by_cases h2 : 0 < v >>> 7
      · rw [if_pos h2]
        simp only [impliedValue]
        rw [or128_and127 hmod, ih _ hlt, and127_eq_mod, shiftRight7_eq]
        omega
      · have h2' : v >>> 7 = 0 := by omega
        rw [if_neg h2, h2', encodeLoop_zero]
        simp only [impliedValue]
        have h3 : (v &&& 127) &&& 127 = v &&& 127 := by
          rw [and127_eq_mod (v &&& 127), Nat.mod_eq_of_lt hmod]
        rw [h3, and127_eq_mod]
        rw [shiftRight7_eq] at h2'
        omega

/-- Decomposition of a nonzero encoding: all bytes before the last carry a
set continuation bit, the last byte has it clear. -/
lemma encodeLoop_decomp {v : Nat} (h : v ≠ 0) :
    ∃ front t, encodeLoop v = front ++ [t] ∧
      (∀ b ∈ front, b &&& 128 ≠ 0) ∧ t &&& 128 = 0 := by
  induction v using Nat.strong_induction_on with
  | _ v ih =>
    have hmod : v &&& 127 < 128 := by
      rw [and127_eq_mod]; exact Nat.mod_lt _ (by norm_num)
    have hlt : v >>> 7 < v := by
      rw [shiftRight7_eq]
      exact Nat.div_lt_self (Nat.pos_of_ne_zero h) (by norm_num)
    by_cases h2 : 0 < v >>> 7
    · obtain ⟨front, t, heq, hfront, ht⟩ := ih _ hlt (Nat.pos_iff_ne_zero.mp h2)
      refine ⟨((v &&& 0x7F) ||| 0x80) :: front, t, ?_, ?_, ht⟩
      · rw [encodeLoop_pos h, if_pos h2, heq]; rfl
      · intro b hb
        rcases List.mem_cons.mp hb with rfl | hb
        · rw [or128_and128 hmod]; omega
        · exact hfront b hb
    · have h2' : v >>> 7 = 0 := by omega
      refine ⟨[], v &&& 0x7F, ?_, by simp, ?_⟩
      · rw [encodeLoop_pos h, if_neg h2, h2', encodeLoop_zero]; rfl
      · exact and128_of_lt hmod

lemma encodeLoop_length {v : Nat} (h : v ≠ 0) :
    (encodeLoop v).length = Nat.log 128 v + 1 := by
  induction v using Nat.strong_induction_on with
  | _ v ih =>
    have hlt : v >>> 7 < v := by
      rw [shiftRight7_eq]
      exact Nat.div_lt_self (Nat.pos_of_ne_zero h) (by norm_num)
    by_cases h2 : 0 < v >>> 7
    · have h128 : 128 ≤ v := by
        rw [shiftRight7_eq] at h2
        by_contra hc
        rw [Nat.div_eq_of_lt (by omega)] at h2
        omega
      have hpos : 0 < Nat.log 128 v := Nat.log_pos (by norm_num) h128
      rw [encodeLoop_pos h, List.length_cons, ih _ hlt (Nat.pos_iff_ne_zero.mp h2),
        shiftRight7_eq, Nat.log_div_base]
      omega
    · have h2' : v >>> 7 = 0 := by omega
      have hvlt : v < 128 := by
        rw [shiftRight7_eq] at h2'
        by_contra hc
        have := Nat.div_le_div_right (c := 128) (Nat.le_of_not_lt hc)
        simp at this
        omega
      rw [encodeLoop_pos h, h2', encodeLoop_zero, List.length_cons, List.length_nil]
      have : Nat.log 128 v = 0 := Nat.log_eq_zero_iff.mpr (Or.inl hvlt)
      omega

lemma encodeLoop_length_le {v n : Nat} (h : v ≠ 0) (hv : v < 128 ^ n) :
    (encodeLoop v).length ≤ n := by
  rw [encodeLoop_length h]
  exact Nat.log_lt_of_lt_pow h hv

/-! ### Master decoding lemma: a terminated byte run within bounds -/

/-- Running the decode loop over continuation bytes `front`, a terminating
byte `t` and arbitrary trailing bytes `rest` succeeds, consumes exactly
`front.length + 1` bytes and accumulates the implied value, provided the
shift amounts stay below the width and the final value fits. -/
lemma decodeLoop_append_term (W : Nat) :
    ∀ (front : List Nat) (t : Nat) (rest : List Nat) (i acc : Nat),
      (∀ b ∈ front, b &&& 128 ≠ 0) → t &&& 128 = 0 →
      7 * (i + front.length) < W →
      acc + 2 ^ (7 * i) * impliedValue (front ++ [t]) < 2 ^ W →
      acc < 2 ^ (7 * i) →
      decodeLoop W (front ++ t :: rest) i acc =
        .ok (i + front.length + 1, acc + 2 ^ (7 * i) * impliedValue (front ++ [t])) := by
  intro front
  induction front with
  | nil =>
    intro t rest i acc _ ht hW hval hacc
    simp only [List.nil_append, impliedValue, Nat.mul_zero, Nat.add_zero,
      List.length_nil] at hval ⊢
    rw [Nat.mul_comm (2 ^ (7 * i)) (t &&& 127)] at hval ⊢
    have hi : i * 7 < W := by omega
    have hshl : checked_shl W (t &&& 0x7F) (i * 7) = some ((t &&& 127) * 2 ^ (7 * i)) := by
      rw [checked_shl, if_pos hi, Nat.shiftLeft_eq, Nat.mul_comm i 7,
        Nat.mod_eq_of_lt (by omega)]
    have hadd : checked_add W acc ((t &&& 127) * 2 ^ (7 * i)) =
        some (acc + (t &&& 127) * 2 ^ (7 * i)) := by
      rw [checked_add, if_pos (by omega)]
    simp only [decodeLoop, hshl, hadd]
    simp [ht]
  | cons b fr ih =>
    intro t rest i acc hfront ht hW hval hacc
    have hb : b &&& 128 ≠ 0 := hfront b (List.mem_cons_self b fr)
    have hd : b &&& 127 < 128 := by
      rw [and127_eq_mod]; exact Nat.mod_lt _ (by norm_num)
    simp only [List.cons_append, impliedValue, List.length_cons, List.append_eq] at hW hval ⊢
    have hpow : 2 ^ (7 * (i + 1)) = 2 ^ (7 * i) * 128 := by
      rw [Nat.mul_add, Nat.pow_add]
    have hi : i * 7 < W := by omega
    have hterm : (b &&& 127) * 2 ^ (7 * i) ≤
        2 ^ (7 * i) * ((b &&& 127) + 128 * impliedValue (fr ++ [t])) := by
      rw [Nat.mul_comm]
      exact Nat.mul_le_mul_left _ (by omega)
    have hshl : checked_shl W (b &&& 0x7F) (i * 7) = some ((b &&& 127) * 2 ^ (7 * i)) := by
      have hlt : (b &&& 127) * 2 ^ (7 * i) < 2 ^ W := by omega
      rw [checked_shl, if_pos hi, Nat.shiftLeft_eq, Nat.mul_comm i 7,
        Nat.mod_eq_of_lt hlt]
    have hadd : checked_add W acc ((b &&& 127) * 2 ^ (7 * i)) =
        some (acc + (b &&& 127) * 2 ^ (7 * i)) := by
      rw [checked_add, if_pos (by omega)]
    simp only [decodeLoop, hshl, hadd]
    rw [if_neg hb]
    have harith : (acc + (b &&& 127) * 2 ^ (7 * i)) +
        2 ^ (7 * (i + 1)) * impliedValue (fr ++ [t]) =
        acc + 2 ^ (7 * i) * ((b &&& 127) + 128 * impliedValue (fr ++ [t])) := by
      rw [hpow]; ring
    have hrec := ih t rest (i + 1) (acc + (b &&& 127) * 2 ^ (7 * i))
      (fun x hx => hfront x (List.mem_cons_of_mem b hx)) ht
      (by omega)
      (by omega)
      (by
        have h127 : (b &&& 127) * 2 ^ (7 * i) ≤ 127 * 2 ^ (7 * i) :=
          Nat.mul_le_mul_right _ (by omega)
        have h128 : 127 * 2 ^ (7 * i) + 2 ^ (7 * i) = 2 ^ (7 * i) * 128 := by ring
        omega)
    rw [hrec, harith]
    have hidx : i + 1 + fr.length + 1 = i + (fr.length + 1) + 1 := by omega
    rw [hidx]

/-- The `take`-limited form used by the `decode_uW` entry points: the scan
limit `T` only has to exceed the position of the terminating byte. -/
lemma decodeTake_term (W T : Nat) (front : List Nat) (t : Nat) (rest : List Nat)
    (hfront : ∀ b ∈ front, b &&& 128 ≠ 0) (ht : t &&& 128 = 0)
    (hlen : front.length < T) (hW : 7 * front.length < W)
    (hval : impliedValue (front ++ [t]) < 2 ^ W) :
    decodeLoop W ((front ++ t :: rest).take T) 0 0 =
      .ok (front.length + 1, impliedValue (front ++ [t])) := by
  have htake : (front ++ t :: rest).take T =
      front ++ t :: rest.take (T - front.length - 1) := by
    rw [List.take_append_eq_append_take, List.take_of_length_le (by omega)]
    congr 1
    have hk : T - front.length = (T - front.length - 1) + 1 := by omega
    conv_lhs => rw [hk]
    rw [List.take_succ_cons]
  rw [htake]
  have h := decodeLoop_append_term W front t (rest.take (T - front.length - 1)) 0 0
    hfront ht (by omega) (by simpa using hval) (by norm_num)
  simpa using h

/-- Decoding any byte stream that starts with the encoding of a nonzero
value `v < 2 ^ W` under scan limit `T`. -/
lemma decodeTake_encodeLoop (W T v : Nat) (rest : List Nat) (h0 : v ≠ 0)
    (hv : v < 2 ^ W) (hlen : (encodeLoop v).length ≤ T)
    (hW : 7 * ((encodeLoop v).length - 1) < W) :
    decodeLoop W ((encodeLoop v ++ rest).take T) 0 0 =
      .ok ((encodeLoop v).length, v) := by
  obtain ⟨front, t, heq, hfront, ht⟩ := encodeLoop_decomp h0
  have hival : impliedValue (front ++ [t]) = v := by
    rw [← heq, impliedValue_encodeLoop]
  have hflen : front.length + 1 = (encodeLoop v).length := by
    rw [heq, List.length_append, List.length_cons, List.length_nil]
  have := decodeTake_term W T front t rest hfront ht (by omega) (by omega)
    (by rw [hival]; exact hv)
  rw [heq, List.append_assoc, List.singleton_append, this, hival]
  simp [List.length_append]

lemma decode_u32_encode_append (v : Nat) (hv : v < 2 ^ 32) (rest : List Nat) :
    decode_u32 (encode_u32 v ++ rest) = .ok ((encode_u32 v).length, v) := by
  by_cases h0 : v = 0
  · subst h0
    have h := decodeTake_term 32 5 [] 0 rest (by simp) (by decide) (by norm_num)
      (by norm_num) (by decide)
    simp only [List.nil_append] at h
    show decodeLoop 32 (((0 : Nat) :: rest).take 5) 0 0 = .ok (1, 0)
    rw [h]
    rfl
  · have hlen : (encodeLoop v).length ≤ 5 :=
      encodeLoop_length_le h0 (lt_of_lt_of_le hv (by norm_num))
    have h := decodeTake_encodeLoop 32 5 v rest h0 hv hlen (by omega)
    rw [encode_u32, if_neg h0]
    exact h

lemma decode_u64_encode_append (v : Nat) (hv : v < 2 ^ 64) (rest : List Nat) :
    decode_u64 (encode_u64 v ++ rest) = .ok ((encode_u64 v).length, v) := by
  by_cases h0 : v = 0
  · subst h0
    have h := decodeTake_term 64 10 [] 0 rest (by simp) (by decide) (by norm_num)
      (by norm_num) (by decide)
    simp only [List.nil_append] at h
    show decodeLoop 64 (((0 : Nat) :: rest).take 10) 0 0 = .ok (1, 0)
    rw [h]
    rfl
  · have hlen : (encodeLoop v).length ≤ 10 :=
      encodeLoop_length_le h0 (lt_of_lt_of_le hv (by norm_num))
    have h := decodeTake_encodeLoop 64 10 v rest h0 hv hlen (by omega)
    rw [encode_u64, if_neg h0]
    exact h

/-- C1: for every width W in {32, 64} and every value v in [0, 2^W - 1],
decoding the bytes produced by the allocating encoder for v succeeds and
returns exactly (length of that byte sequence, v). -/
theorem roundtrip_decode_encode (v : Nat) :
    (v < 2 ^ 32 → decode_u32 (encode_u32 v) = .ok ((encode_u32 v).length, v)) ∧
    (v < 2 ^ 64 → decode_u64 (encode_u64 v) = .ok ((encode_u64 v).length, v)) := by
  constructor
  · intro hv
    have h := decode_u32_encode_append v hv []
    rwa [List.append_nil] at h
  · intro hv
    have h := decode_u64_encode_append v hv []
    rwa [List.append_nil] at h

/-- Witness for C1 at v = 300 and at the width maxima. -/
theorem roundtrip_decode_encode_witness :
    decode_u32 (encode_u32 300) = .ok ((encode_u32 300).length, 300) ∧
    decode_u64 (encode_u64 (2 ^ 64 - 1)) = .ok ((encode_u64 (2 ^ 64 - 1)).length, 2 ^ 64 - 1) :=
  ⟨(roundtrip_decode_encode 300).1 (by norm_num),
   (roundtrip_decode_encode (2 ^ 64 - 1)).2 (by norm_num)⟩

/-- C9: for every width W in {32, 64}, every value v and every byte
sequence extra, decoding `encode(v) ++ extra` succeeds, consumes exactly
`encode(v).length` bytes and yields v, regardless of extra. -/
theorem prefix_independent_decode (v : Nat) (extra : List Nat) :
    (v < 2 ^ 32 → decode_u32 (encode_u32 v ++ extra) = .ok ((encode_u32 v).length, v)) ∧
    (v < 2 ^ 64 → decode_u64 (encode_u64 v ++ extra) = .ok ((encode_u64 v).length, v)) :=
  ⟨fun hv => decode_u32_encode_append v hv extra,
   fun hv => decode_u64_encode_append v hv extra⟩

/-- Witness for C9 with arbitrary garbage appended. -/
theorem prefix_independent_decode_witness :
    decode_u32 (encode_u32 300 ++ [0xFF, 0x80, 0x00]) = .ok ((encode_u32 300).length, 300) ∧
    decode_u64 (encode_u64 300 ++ [0xFF, 0x80, 0x00]) = .ok ((encode_u64 300).length, 300) :=
  ⟨(prefix_independent_decode 300 [0xFF, 0x80, 0x00]).1 (by norm_num),
   (prefix_independent_decode 300 [0xFF, 0x80, 0x00]).2 (by norm_num)⟩

example : encode_u32 300 = [0xAC, 0x02] := by
  simp [encode_u32, encodeLoop]
  decide

example : encode_u64 (2 ^ 64 - 1) =
    [0xFF, 0xFF, 0xFF, 0xFF, 0xFF, 0xFF, 0xFF, 0xFF, 0xFF, 0x01] := by
  simp [encode_u64, encodeLoop]
  decide

/-- C8 counterexample: a 17-byte over-long encoding of zero has its
terminating byte within the spec's 19-byte scan limit for 128-bit
decoding, yet `decode_u128` (which scans only 16 bytes) rejects it with
`Incomplete` instead of returning `(17, 0)`. -/
theorem decode_u128_overlong_17_rejected :
    decode_u128 (List.replicate 16 0x80 ++ [0x00]) = .error .Incomplete := by rfl

/-- C8 (amended): each decoder accepts non-minimal (over-long) encodings
whose terminating byte lies within its own scan window (5 bytes for u32,
10 for u64, 16 for u128 as coded) and returns the value implied by the
data bits present; e.g. `[0x80, 0x00]` decodes to `(2, 0)` and `[0x00]`
to `(1, 0)` at every width. -/
theorem nonminimal_encodings_accepted (front : List Nat) (t : Nat) (rest : List Nat) :
    ((∀ b ∈ front, b &&& 128 ≠ 0) → t &&& 128 = 0 → front.length < 5 →
      impliedValue (front ++ [t]) < 2 ^ 32 →
      decode_u32 (front ++ t :: rest) = .ok (front.length + 1, impliedValue (front ++ [t]))) ∧
    ((∀ b ∈ front, b &&& 128 ≠ 0) → t &&& 128 = 0 → front.length < 10 →
      impliedValue (front ++ [t]) < 2 ^ 64 →
      decode_u64 (front ++ t :: rest) = .ok (front.length + 1, impliedValue (front ++ [t]))) ∧
    ((∀ b ∈ front, b &&& 128 ≠ 0) → t &&& 128 = 0 → front.length < 16 →
      impliedValue (front ++ [t]) < 2 ^ 128 →
      decode_u128 (front ++ t :: rest) = .ok (front.length + 1, impliedValue (front ++ [t]))) ∧
    decode_u32 [0x80, 0x00] = .ok (2, 0) ∧ decode_u32 [0x00] = .ok (1, 0) ∧
    decode_u64 [0x80, 0x00] = .ok (2, 0) ∧ decode_u64 [0x00] = .ok (1, 0) ∧
    decode_u128 [0x80, 0x00] = .ok (2, 0) ∧ decode_u128 [0x00] = .ok (1, 0) := by
  refine ⟨?_, ?_, ?_, by rfl, by rfl, by rfl, by rfl, by rfl, by rfl⟩
  · intro hf ht hl hval
    exact decodeTake_term 32 5 front t rest hf ht hl (by omega) hval
  · intro hf ht hl hval
    exact decodeTake_term 64 10 front t rest hf ht hl (by omega) hval
  · intro hf ht hl hval
    exact decodeTake_term 128 16 front t rest hf ht hl (by omega) hval

/-- Witness for the amended C8 at an over-long encoding of 5. -/
theorem nonminimal_encodings_accepted_witness :
    decode_u32 [0x85, 0x80, 0x00] = .ok (3, 5) := by
  have h := (nonminimal_encodings_accepted [0x85, 0x80] 0x00 []).1
    (by decide) (by decide) (by decide) (by decide)
  simpa using h

/-- When every scanned byte has its continuation bit set, the decode loop
runs off the end of its scan window and reports `Incomplete`; in
particular no checked operation ever fails along the way. -/
lemma decodeLoop_all_cont (W : Nat) :
    ∀ (bs : List Nat) (i acc : Nat),
      (∀ b ∈ bs, b &&& 128 ≠ 0) →
      7 * (i + bs.length) < W + 7 →
      acc < 2 ^ (7 * i) → acc < 2 ^ W →
      decodeLoop W bs i acc = .error .Incomplete := by
  intro bs
  induction bs with
  | nil => intro i acc _ _ _ _; rfl
  | cons b rest ih =>
    intro i acc hcont hW hacc haccW
    have hb : b &&& 128 ≠ 0 := hcont b (List.mem_cons_self b rest)
    have hd : b &&& 127 < 128 := by
      rw [and127_eq_mod]; exact Nat.mod_lt _ (by norm_num)
    simp only [List.length_cons] at hW
    have hi : i * 7 < W := by omega
    have hpow : 2 ^ (7 * (i + 1)) = 2 ^ (7 * i) * 128 := by
      rw [Nat.mul_add, Nat.pow_add]
    have hS : ((b &&& 127) * 2 ^ (7 * i)) % 2 ^ W < 2 ^ W ∧
        acc + ((b &&& 127) * 2 ^ (7 * i)) % 2 ^ W < 2 ^ W ∧
        acc + ((b &&& 127) * 2 ^ (7 * i)) % 2 ^ W < 2 ^ (7 * (i + 1)) := by
      by_cases hc : 7 * (i + 1) ≤ W
      · have hle : (b &&& 127) * 2 ^ (7 * i) ≤ 127 * 2 ^ (7 * i) :=
          Nat.mul_le_mul_right _ (by omega)
        have h2 : 2 ^ (7 * (i + 1)) ≤ 2 ^ W := Nat.pow_le_pow_right (by norm_num) hc
        have hmodeq : ((b &&& 127) * 2 ^ (7 * i)) % 2 ^ W = (b &&& 127) * 2 ^ (7 * i) := by
          apply Nat.mod_eq_of_lt
          omega
        rw [hmodeq]
        omega
      · have hmod : ((b &&& 127) * 2 ^ (7 * i)) % 2 ^ W < 2 ^ W :=
          Nat.mod_lt _ (Nat.pos_pow_of_pos W (by norm_num))
        have hdvd : 2 ^ (7 * i) ∣ ((b &&& 127) * 2 ^ (7 * i)) % 2 ^ W := by
          rw [Nat.dvd_mod_iff (Nat.pow_dvd_pow 2 (by omega))]
          exact dvd_mul_left _ _
        obtain ⟨c, hcc⟩ := hdvd
        have hsplit : 2 ^ W = 2 ^ (7 * i) * 2 ^ (W - 7 * i) := by
          rw [← Nat.pow_add]
          congr 1
          omega
        have hcb : c < 2 ^ (W - 7 * i) := by
          by_contra hcb
          have : 2 ^ (7 * i) * 2 ^ (W - 7 * i) ≤ 2 ^ (7 * i) * c :=
            Nat.mul_le_mul_left _ (Nat.le_of_not_lt hcb)
          omega
        have hsucc : 2 ^ (7 * i) * (c + 1) ≤ 2 ^ W := by
          rw [hsplit]
          exact Nat.mul_le_mul_left _ hcb
        have hWlt : 2 ^ W < 2 ^ (7 * (i + 1)) :=
          Nat.pow_lt_pow_right (by norm_num) (by omega)
        have : 2 ^ (7 * i) * (c + 1) = 2 ^ (7 * i) * c + 2 ^ (7 * i) := by ring
        omega
    have hshl : checked_shl W (b &&& 0x7F) (i * 7) =
        some (((b &&& 127) * 2 ^ (7 * i)) % 2 ^ W) := by
      rw [checked_shl, if_pos hi, Nat.shiftLeft_eq, Nat.mul_comm i 7]
    have hadd : checked_add W acc (((b &&& 127) * 2 ^ (7 * i)) % 2 ^ W) =
        some (acc + ((b &&& 127) * 2 ^ (7 * i)) % 2 ^ W) := by
      rw [checked_add, if_pos hS.2.1]
    simp only [decodeLoop, hshl, hadd]
    rw [if_neg hb]
    exact ih (i + 1) _ (fun x hx => hcont x (List.mem_cons_of_mem b hx))
      (by omega) hS.2.2 hS.2.1

lemma decode_u32_all_cont (data : List Nat) (h : ∀ b ∈ data.take 5, b &&& 128 ≠ 0) :
    decode_u32 data = .error .Incomplete := by
  have hlen : (data.take 5).length ≤ 5 := by
    simp [List.length_take]
  exact decodeLoop_all_cont 32 (data.take 5) 0 0 h (by omega) (by norm_num) (by norm_num)

lemma decode_u64_all_cont (data : List Nat) (h : ∀ b ∈ data.take 10, b &&& 128 ≠ 0) :
    decode_u64 data = .error .Incomplete := by
  have hlen : (data.take 10).length ≤ 10 := by
    simp [List.length_take]
  exact decodeLoop_all_cont 64 (data.take 10) 0 0 h (by omega) (by norm_num) (by norm_num)

lemma decode_u128_all_cont (data : List Nat) (h : ∀ b ∈ data.take 16, b &&& 128 ≠ 0) :
    decode_u128 data = .error .Incomplete := by
  have hlen : (data.take 16).length ≤ 16 := by
    simp [List.length_take]
  exact decodeLoop_all_cont 128 (data.take 16) 0 0 h (by omega) (by norm_num) (by norm_num)

/-- Every byte of a strict prefix of a nonzero minimal encoding still has
its continuation bit set. -/
lemma encodeLoop_take_high {v k : Nat} (h0 : v ≠ 0) (hk : k < (encodeLoop v).length) :
    ∀ b ∈ (encodeLoop v).take k, b &&& 128 ≠ 0 := by
  obtain ⟨front, t, heq, hfront, ht⟩ := encodeLoop_decomp h0
  intro b hb
  rw [heq] at hb hk
  rw [List.length_append, List.length_cons, List.length_nil] at hk
  rw [List.take_append_of_le_length (by omega)] at hb
  exact hfront b (List.take_subset _ _ hb)

/-- C7: for every width W in {32, 64, 128}, decoding the empty input fails
with Incomplete; decoding any input whose bytes all carry the continuation
bit up to the end of input or the max_bytes(W) scan limit (5/10/19) fails
with Incomplete; and decoding any strict nonempty prefix of a minimal
encoding fails with Incomplete. -/
theorem decode_incomplete_on_exhaustion :
    (decode_u32 [] = .error .Incomplete ∧ decode_u64 [] = .error .Incomplete ∧
      decode_u128 [] = .error .Incomplete) ∧
    (∀ data : List Nat,
      ((∀ b ∈ data.take 5, b &&& 128 ≠ 0) → decode_u32 data = .error .Incomplete) ∧
      ((∀ b ∈ data.take 10, b &&& 128 ≠ 0) → decode_u64 data = .error .Incomplete) ∧
      ((∀ b ∈ data.take 19, b &&& 128 ≠ 0) → decode_u128 data = .error .Incomplete)) ∧
    (∀ v k : Nat, 0 < k →
      (v < 2 ^ 32 → k < (encode_u32 v).length →
        decode_u32 ((encode_u32 v).take k) = .error .Incomplete) ∧
      (v < 2 ^ 64 → k < (encode_u64 v).length →
        decode_u64 ((encode_u64 v).take k) = .error .Incomplete) ∧
      (v < 2 ^ 128 → k < (encode_u128 v).length →
        decode_u128 ((encode_u128 v).take k) = .error .Incomplete)) := by
  refine ⟨⟨by rfl, by rfl, by rfl⟩, ?_, ?_⟩
  · intro data
    refine ⟨decode_u32_all_cont data, decode_u64_all_cont data, ?_⟩
    intro h
    apply decode_u128_all_cont data
    intro b hb
    have : data.take 16 = (data.take 19).take 16 := by
      rw [List.take_take]
      norm_num
    rw [this] at hb
    exact h b (List.take_subset _ _ hb)
  · intro v k hk0
    have hstep : ∀ W T : Nat, v ≠ 0 → k < (encodeLoop v).length →
        (∀ b ∈ ((encodeLoop v).take k).take T, b &&& 128 ≠ 0) := by
      intro W T h0 hklen b hb
      exact encodeLoop_take_high h0 hklen b (List.take_subset _ _ hb)
    refine ⟨?_, ?_, ?_⟩ <;> intro hv hk
    · by_cases h0 : v = 0
      · subst h0; simp [encode_u32] at hk; omega
      · rw [encode_u32, if_neg h0] at hk ⊢
        exact decode_u32_all_cont _ (hstep 32 5 h0 hk)
    · by_cases h0 : v = 0
      · subst h0; simp [encode_u64] at hk; omega
      · rw [encode_u64, if_neg h0] at hk ⊢
        exact decode_u64_all_cont _ (hstep 64 10 h0 hk)
    · by_cases h0 : v = 0
      · subst h0; simp [encode_u128] at hk; omega
      · rw [encode_u128, if_neg h0] at hk ⊢
        exact decode_u128_all_cont _ (hstep 128 16 h0 hk)

/-- Witness for C7: a lone continuation byte, a 19-byte all-continuation
run for the 128-bit decoder, and the 1-byte strict prefix of the 2-byte
minimal encoding of 300. -/
theorem decode_incomplete_on_exhaustion_witness :
    decode_u32 [0x80] = .error .Incomplete ∧
    decode_u128 (List.replicate 19 0x80) = .error .Incomplete ∧
    decode_u32 ((encode_u32 300).take 1) = .error .Incomplete :=
  ⟨(decode_incomplete_on_exhaustion.2.1 [0x80]).1 (by decide),
   (decode_incomplete_on_exhaustion.2.1 (List.replicate 19 0x80)).2.2 (by decide),
   (decode_incomplete_on_exhaustion.2.2 300 1 (by norm_num)).1 (by norm_num)
     (by simp [encode_u32, encodeLoop])⟩

/-! ### Minimality of the encoder output (C4) -/

lemma pow128_eq (k : Nat) : (128 : Nat) ^ k = 2 ^ (7 * k) := by
  rw [Nat.pow_mul]

lemma log128_eq_log2_div7 {v : Nat} (h : v ≠ 0) : Nat.log 128 v = Nat.log 2 v / 7 := by
  have h1 : 2 ^ Nat.log 2 v ≤ v := Nat.pow_log_le_self 2 h
  have h2 : v < 2 ^ (Nat.log 2 v + 1) := Nat.lt_pow_succ_log_self (by norm_num) v
  have hlow : (128 : Nat) ^ (Nat.log 2 v / 7) ≤ v := by
    rw [pow128_eq]
    exact le_trans (Nat.pow_le_pow_right (by norm_num) (Nat.mul_div_le _ _)) h1
  have hhigh : v < 128 ^ (Nat.log 2 v / 7 + 1) := by
    rw [pow128_eq]
    exact lt_of_lt_of_le h2 (Nat.pow_le_pow_right (by norm_num) (by omega))
  exact Nat.log_eq_of_pow_le_of_lt_pow hlow hhigh

lemma encode_u32_length_eq (v : Nat) :
    (encode_u32 v).length = max 1 ((bit_length v + 6) / 7) := by
  by_cases h0 : v = 0
  · subst h0
    rw [encode_u32, if_pos rfl, bit_length, if_pos rfl]
    simp
  · rw [encode_u32, if_neg h0, encodeLoop_length h0, log128_eq_log2_div7 h0,
      bit_length, if_neg h0]
    omega

lemma encode_u32_dropLast_high (v : Nat) :
    ∀ b ∈ (encode_u32 v).dropLast, b &&& 128 ≠ 0 := by
  by_cases h0 : v = 0
  · subst h0
    rw [encode_u32, if_pos rfl]
    simp
  · rw [encode_u32, if_neg h0]
    obtain ⟨front, t, heq, hfront, ht⟩ := encodeLoop_decomp h0
    rw [heq, List.dropLast_concat]
    exact hfront

/-- C4: for every width W in {32, 64, 128} and every value v of that width,
the allocating encoder emits exactly `max(1, ceil(bit_length(v)/7))` bytes,
every byte except the last carries the continuation bit, and the encoding
of 0 is exactly `[0x00]`. -/
theorem encode_minimal_output (v : Nat) :
    (v < 2 ^ 32 → (encode_u32 v).length = max 1 ((bit_length v + 6) / 7) ∧
      ∀ b ∈ (encode_u32 v).dropLast, b &&& 128 ≠ 0) ∧
    (v < 2 ^ 64 → (encode_u64 v).length = max 1 ((bit_length v + 6) / 7) ∧
      ∀ b ∈ (encode_u64 v).dropLast, b &&& 128 ≠ 0) ∧
    (v < 2 ^ 128 → (encode_u128 v).length = max 1 ((bit_length v + 6) / 7) ∧
      ∀ b ∈ (encode_u128 v).dropLast, b &&& 128 ≠ 0) ∧
    encode_u32 0 = [0x00] ∧ encode_u64 0 = [0x00] ∧ encode_u128 0 = [0x00] :=
  ⟨fun _ => ⟨encode_u32_length_eq v, encode_u32_dropLast_high v⟩,
   fun _ => ⟨encode_u32_length_eq v, encode_u32_dropLast_high v⟩,
   fun _ => ⟨encode_u32_length_eq v, encode_u32_dropLast_high v⟩,
   rfl, rfl, rfl⟩

/-- Witness for C4 at v = 300 (2 bytes) across the widths. -/
theorem encode_minimal_output_witness :
    ((encode_u32 300).length = max 1 ((bit_length 300 + 6) / 7) ∧
      ∀ b ∈ (encode_u32 300).dropLast, b &&& 128 ≠ 0) ∧
    ((encode_u128 300).length = max 1 ((bit_length 300 + 6) / 7) ∧
      ∀ b ∈ (encode_u128 300).dropLast, b &&& 128 ≠ 0) :=
  ⟨(encode_minimal_output 300).1 (by norm_num),
   (encode_minimal_output 300).2.2.1 (by norm_num)⟩

/-! ### In-place encoding (C6, C10) -/

/-- Sequential overwrite of `buf` with `ws` starting at index `i`: the
effect of the `buf[i] = byte; i += 1` writes of the in-place encoders. -/
def listWrite : List Nat → Nat → List Nat → List Nat
  | buf, _, [] => buf
  | buf, i, w :: ws => listWrite (buf.set i w) (i + 1) ws

lemma listWrite_char : ∀ (ws buf : List Nat) (i : Nat), i + ws.length ≤ buf.length →
    listWrite buf i ws = buf.take i ++ ws ++ buf.drop (i + ws.length) := by
  intro ws
  induction ws with
  | nil =>
    intro buf i _
    simp [listWrite]
  | cons w ws ih =>
    intro buf i hlen
    simp only [List.length_cons] at hlen
    have hi : i < buf.length := by omega
    have hset : buf.set i w = buf.take i ++ w :: buf.drop (i + 1) := by
      rw [List.set_eq_take_append_cons_drop, if_pos hi]
    have hlen2 : (i + 1) + ws.length ≤ (buf.set i w).length := by
      rw [List.length_set]
      omega
    show listWrite (buf.set i w) (i + 1) ws = _
    rw [ih _ _ hlen2]
    have htk : (buf.set i w).take (i + 1) = buf.take i ++ [w] := by
      rw [hset, List.take_append_eq_append_take, List.length_take,
        List.take_take]
      have h1 : min (i + 1) i = i := by omega
      have h2 : min i buf.length = i := by omega
      rw [h1, h2]
      have h3 : i + 1 - i = 1 := by omega
      rw [h3]
      rfl
    have hdr : (buf.set i w).drop (i + 1 + ws.length) = buf.drop (i + (ws.length + 1)) := by
      rw [hset, List.drop_append_eq_append_drop, List.drop_eq_nil_of_le,
        List.length_take]
      · have h2 : min i buf.length = i := by omega
        rw [h2]
        have h3 : i + 1 + ws.length - i = ws.length + 1 := by omega
        rw [h3, List.nil_append, List.drop_succ_cons, List.drop_drop]
        congr 1
        omega
      · rw [List.length_take]
        omega
    rw [htk, hdr]
    simp [List.append_assoc]

lemma listWrite_length : ∀ (ws buf : List Nat) (i : Nat),
    (listWrite buf i ws).length = buf.length := by
  intro ws
  induction ws with
  | nil => intro buf i; rfl
  | cons w ws ih =>
    intro buf i
    show (listWrite (buf.set i w) (i + 1) ws).length = _
    rw [ih, List.length_set]

lemma encodeIntoLoop_zero (buf : List Nat) (i : Nat) :
    encodeIntoLoop 0 buf i = (.ok i, buf) := by
  rw [encodeIntoLoop]
  simp

lemma encodeIntoLoop_pos {v : Nat} (h : v ≠ 0) (buf : List Nat) (i : Nat) :
    encodeIntoLoop v buf i =
      if buf.length ≤ i then (.error .BufferTooSmall, buf)
      else encodeIntoLoop (v >>> 7)
        (buf.set i (if 0 < v >>> 7 then (v &&& 0x7F) ||| 0x80 else v &&& 0x7F)) (i + 1) := by
  rw [encodeIntoLoop]
  simp [h]

/-- On a large-enough buffer the in-place loop succeeds, returns the index
past the written bytes, and overwrites exactly the bytes the allocating
loop emits. -/
lemma encodeIntoLoop_ok {v : Nat} (h0 : v ≠ 0) :
    ∀ buf i, i + (encodeLoop v).length ≤ buf.length →
      encodeIntoLoop v buf i =
        (.ok (i + (encodeLoop v).length), listWrite buf i (encodeLoop v)) := by
  induction v using Nat.strong_induction_on with
  | _ v ih =>
    intro buf i hlen
    have hlt : v >>> 7 < v := by
      rw [shiftRight7_eq]
      exact Nat.div_lt_self (Nat.pos_of_ne_zero h0) (by norm_num)
    rw [encodeLoop_pos h0] at hlen ⊢
    simp only [List.length_cons] at hlen ⊢
    have hi : ¬ buf.length ≤ i := by omega
    rw [encodeIntoLoop_pos h0, if_neg hi]
    by_cases h2 : v >>> 7 = 0
    · rw [h2, encodeLoop_zero, encodeIntoLoop_zero]
      simp only [h2, encodeLoop_zero] at hlen ⊢
      rfl
    · have hrec := ih _ hlt h2
        (buf.set i (if 0 < v >>> 7 then (v &&& 0x7F) ||| 0x80 else v &&& 0x7F)) (i + 1)
        (by rw [List.length_set]; omega)
      rw [hrec]
      have hidx : i + 1 + (encodeLoop (v >>> 7)).length =
          i + ((encodeLoop (v >>> 7)).length + 1) := by omega
      rw [hidx]
      rfl

/-- On a too-small buffer the in-place loop fails with `BufferTooSmall`. -/
lemma encodeIntoLoop_err {v : Nat} (h0 : v ≠ 0) :
    ∀ buf i, buf.length < i + (encodeLoop v).length →
      (encodeIntoLoop v buf i).1 = .error .BufferTooSmall := by
  induction v using Nat.strong_induction_on with
  | _ v ih =>
    intro buf i hlen
    have hlt : v >>> 7 < v := by
      rw [shiftRight7_eq]
      exact Nat.div_lt_self (Nat.pos_of_ne_zero h0) (by norm_num)
    rw [encodeLoop_pos h0, List.length_cons] at hlen
    rw [encodeIntoLoop_pos h0]
    by_cases hi : buf.length ≤ i
    · rw [if_pos hi]
    · rw [if_neg hi]
      have h2 : v >>> 7 ≠ 0 := by
        intro hz
        rw [hz, encodeLoop_zero] at hlen
        simp at hlen
        omega
      exact ih _ hlt h2 _ (i + 1) (by rw [List.length_set]; omega)

/-- The in-place loop never changes the buffer's length. -/
lemma encodeIntoLoop_sndlen {v : Nat} :
    ∀ buf i, (encodeIntoLoop v buf i).2.length = buf.length := by
  induction v using Nat.strong_induction_on with
  | _ v ih =>
    intro buf i
    by_cases h0 : v = 0
    · subst h0; rw [encodeIntoLoop_zero]
    · have hlt : v >>> 7 < v := by
        rw [shiftRight7_eq]
        exact Nat.div_lt_self (Nat.pos_of_ne_zero h0) (by norm_num)
      rw [encodeIntoLoop_pos h0]
      by_cases hi : buf.length ≤ i
      · rw [if_pos hi]
      · rw [if_neg hi, ih _ hlt, List.length_set]

lemma encode_u32_into_ok {v : Nat} (buf : List Nat)
    (h : (encode_u32 v).length ≤ buf.length) :
    encode_u32_into v buf = (.ok (encode_u32 v).length, listWrite buf 0 (encode_u32 v)) := by
  by_cases h0 : v = 0
  · subst h0
    cases buf with
    | nil => rw [encode_u32, if_pos rfl] at h; simp at h
    | cons b bs => rfl
  · cases buf with
    | nil =>
      rw [encode_u32, if_neg h0] at h
      rw [encodeLoop_pos h0] at h
      simp at h
    | cons b bs =>
      rw [encode_u32, if_neg h0] at h ⊢
      have hstep : encode_u32_into v (b :: bs) = encodeIntoLoop v (b :: bs) 0 := by
        simp [encode_u32_into, h0]
      rw [hstep]
      have hok := encodeIntoLoop_ok h0 (b :: bs) 0 (by omega)
      simpa using hok

lemma encode_u32_into_err {v : Nat} (buf : List Nat)
    (h : buf.length < (encode_u32 v).length) :
    (encode_u32_into v buf).1 = .error .BufferTooSmall := by
  cases buf with
  | nil => rfl
  | cons b bs =>
    by_cases h0 : v = 0
    · subst h0
      rw [encode_u32, if_pos rfl] at h
      simp at h
    · rw [encode_u32, if_neg h0] at h
      have hstep : encode_u32_into v (b :: bs) = encodeIntoLoop v (b :: bs) 0 := by
        simp [encode_u32_into, h0]
      rw [hstep]
      exact encodeIntoLoop_err h0 (b :: bs) 0 (by omega)

lemma encode_u32_into_sndlen (v : Nat) (buf : List Nat) :
    (encode_u32_into v buf).2.length = buf.length := by
  cases buf with
  | nil => rfl
  | cons b bs =>
    by_cases h0 : v = 0
    · subst h0
      show ((b :: bs).set 0 0x00).length = _
      rw [List.length_set]
    · have hstep : encode_u32_into v (b :: bs) = encodeIntoLoop v (b :: bs) 0 := by
        simp [encode_u32_into, h0]
      rw [hstep, encodeIntoLoop_sndlen]

lemma encode_u32_into_frame {v : Nat} (buf : List Nat) (n : Nat)
    (h : (encode_u32_into v buf).1 = .ok n) :
    (encode_u32_into v buf).2.drop n = buf.drop n := by
  cases buf with
  | nil => simp [encode_u32_into] at h
  | cons b bs =>
    by_cases h0 : v = 0
    · subst h0
      have h1 : (encode_u32_into 0 (b :: bs)).1 = .ok 1 := rfl
      rw [h1] at h
      have hn : n = 1 := by
        injection h with h2
        omega
      subst hn
      rfl
    · have hstep : encode_u32_into v (b :: bs) = encodeIntoLoop v (b :: bs) 0 := by
        simp [encode_u32_into, h0]
      rw [hstep] at h ⊢
      by_cases hle : (encodeLoop v).length ≤ (b :: bs).length
      · have hok := encodeIntoLoop_ok h0 (b :: bs) 0 (by omega)
        rw [hok] at h ⊢
        have hn : n = (encodeLoop v).length := by
          injection h with h2
          omega
        subst hn
        have hw := listWrite_char (encodeLoop v) (b :: bs) 0 (by omega)
        rw [hw]
        simp only [List.take_zero, List.nil_append, Nat.zero_add]
        rw [List.drop_left]
      · have herr := encodeIntoLoop_err h0 (b :: bs) 0 (by omega)
        rw [herr] at h
        cases h

/-- C6: in-place/allocating equivalence for W in {32, 64}: with enough
room, `encode_into` succeeds, returns `n = encode(v).length`, and writes
exactly `encode(v)` into `buf[0..n]`; with too little room it fails with
`BufferTooSmall`. -/
theorem encode_into_matches_encode (v : Nat) (buf : List Nat) :
    (v < 2 ^ 32 →
      ((encode_u32 v).length ≤ buf.length →
        (encode_u32_into v buf).1 = .ok (encode_u32 v).length ∧
        (encode_u32_into v buf).2.take (encode_u32 v).length = encode_u32 v) ∧
      (buf.length < (encode_u32 v).length →
        (encode_u32_into v buf).1 = .error .BufferTooSmall)) ∧
    (v < 2 ^ 64 →
      ((encode_u64 v).length ≤ buf.length →
        (encode_u64_into v buf).1 = .ok (encode_u64 v).length ∧
        (encode_u64_into v buf).2.take (encode_u64 v).length = encode_u64 v) ∧
      (buf.length < (encode_u64 v).length →
        (encode_u64_into v buf).1 = .error .BufferTooSmall)) := by
  have key : ((encode_u32 v).length ≤ buf.length →
        (encode_u32_into v buf).1 = .ok (encode_u32 v).length ∧
        (encode_u32_into v buf).2.take (encode_u32 v).length = encode_u32 v) ∧
      (buf.length < (encode_u32 v).length →
        (encode_u32_into v buf).1 = .error .BufferTooSmall) := by
    constructor
    · intro hle
      rw [encode_u32_into_ok buf hle]
      refine ⟨rfl, ?_⟩
      have hw := listWrite_char (encode_u32 v) buf 0 (by omega)
      rw [hw]
      simp only [List.take_zero, List.nil_append, Nat.zero_add]
      rw [List.take_left]
    · exact encode_u32_into_err buf
  exact ⟨fun _ => key, fun _ => key⟩

/-- Witness for C6: 300 into a 2-byte buffer succeeds and fills it with
`[0xAC, 0x02]`; 300 into a 1-byte buffer reports `BufferTooSmall`. -/
theorem encode_into_matches_encode_witness :
    (encode_u32_into 300 [0, 0]).1 = .ok (encode_u32 300).length ∧
    (encode_u32_into 300 [0, 0]).2.take (encode_u32 300).length = encode_u32 300 ∧
    (encode_u64_into 300 [0]).1 = .error .BufferTooSmall := by
  have h1 := ((encode_into_matches_encode 300 [0, 0]).1 (by norm_num)).1
    (by simp [encode_u32, encodeLoop])
  have h2 := ((encode_into_matches_encode 300 [0]).2 (by norm_num)).2
    (by simp [encode_u64, encodeLoop])
  exact ⟨h1.1, h1.2, h2⟩

/-- C10: the in-place encoders never change the buffer's length (no
out-of-bounds write in the list model), and on success with count n every
byte at index ≥ n is left unchanged. -/
theorem encode_into_frame (v : Nat) (buf : List Nat) :
    ((encode_u32_into v buf).2.length = buf.length ∧
      ∀ n, (encode_u32_into v buf).1 = .ok n →
        (encode_u32_into v buf).2.drop n = buf.drop n) ∧
    ((encode_u64_into v buf).2.length = buf.length ∧
      ∀ n, (encode_u64_into v buf).1 = .ok n →
        (encode_u64_into v buf).2.drop n = buf.drop n) := by
  have key : (encode_u32_into v buf).2.length = buf.length ∧
      ∀ n, (encode_u32_into v buf).1 = .ok n →
        (encode_u32_into v buf).2.drop n = buf.drop n :=
    ⟨encode_u32_into_sndlen v buf, fun n h => encode_u32_into_frame buf n h⟩
  exact ⟨key, key⟩

/-- Witness for C10: 300 into a 3-byte buffer writes two bytes and leaves
the third untouched. -/
theorem encode_into_frame_witness :
    (encode_u32_into 300 [9, 9, 9]).2.length = 3 ∧
    (encode_u32_into 300 [9, 9, 9]).2.drop 2 = [9] :=
  ⟨(encode_into_frame 300 [9, 9, 9]).1.1,
   (encode_into_frame 300 [9, 9, 9]).1.2 2 (by
      have h := ((encode_into_matches_encode 300 [9, 9, 9]).1 (by norm_num)).1
        (by simp [encode_u32, encodeLoop])
      have hlen : (encode_u32 300).length = 2 := by
        simp [encode_u32, encodeLoop]
      rw [hlen] at h
      exact h.1)⟩

/-! ### Code findings: overflow truncation, u128 scan budget, read_u32 pulls -/

/-- C2 finding: `[0x80, 0x80, 0x80, 0x80, 0x10]` implies the value 2^32,
which exceeds the u32 range, yet `decode_u32` succeeds with value 0:
Rust's `checked_shl` only rejects shift amounts ≥ 32 and silently discards
the bits shifted out (`16 << 28` wraps to 0), and within the 5-byte scan
window the shift amount never reaches 32, so the `Overflow` paths of
`decode_u32`/`decode_u64`/`decode_u128` are unreachable. -/
theorem decode_u32_overflow_example_wraps :
    decode_u32 [0x80, 0x80, 0x80, 0x80, 0x10] = .ok (5, 0) := by rfl

/-- C3 finding: the minimal 19-byte encoding of `u128::MAX` (18 bytes of
0xFF and a final 0x03) is rejected with `Incomplete`, because
`decode_u128` iterates `data.iter().take(16)` — 16 bytes carry at most 112
data bits, so no value above `2^112 - 1` can be decoded at all. -/
theorem decode_u128_max_incomplete :
    decode_u128 (List.replicate 18 0xFF ++ [0x03]) = .error .Incomplete := by rfl

/-- C5 finding: on a malformed (all-continuation) stream, `read_u32`
pulls 10 bytes before failing — its loop is `for i in 0..10`, copied from
`read_u64` — where the claim and spec say at most `max_bytes(32) = 5`.
The final stream state `[0x63]` shows exactly 10 bytes were consumed. -/
theorem read_u32_pulls_ten_bytes :
    read_u32 (List.replicate 10 0x80 ++ [0x63]) = (.error .Incomplete, [0x63]) := by rfl
